import Mathlib

/-!
Verification of the `charlie` counting bot against its specification.

The development shallowly embeds the two core modules:

* `leaderboard.py` — `LeaderboardEntry`, `Leaderboard` with `record_entry`,
  `remove_entry`, the `_reindex` pass, the read-only lookups and the
  `to_dict`/`from_dict` serialization;
* `bot.py` — the `Count` state machine (`reset`, `increment_to`,
  `can_user_increment`, `can_increment_to`, `count_after_reset`,
  `from_dict`) and `parse_message`.

Python `int` is embedded as `Int`; a Python `dict[int, int]` is embedded as
an insertion-ordered association list with unique keys.  Operations that can
raise (`list[index]` with an out-of-range index, `assert`) return `Option`
(`none` models the raised exception) or an explicit error marker.
-/

namespace Charlie

/-- Embedding of `LeaderboardEntry` (dataclass in `leaderboard.py`), with the
same field defaults. -/
structure LeaderboardEntry where
  user_id : Int
  highest_count : Int
  last_highest_count : Int := 0
  times_counted : Int := 0
  mistakes_made : Int := 0
  rank : Int := 0
  last_rank : Int := 0
deriving Repr, DecidableEq, Inhabited

/-- Embedding of a Python `dict[int, int]`: an insertion-ordered association
list.  Keys are user ids (`Int`), values are positions in `entries` (`Nat`). -/
abbrev PyDict := List (Int × Nat)

/-- `d.get(k)`: the value bound to the first occurrence of key `k`, if any. -/
def dictGet (d : PyDict) (k : Int) : Option Nat :=
  match d with
  | [] => none
  | p :: rest => if p.1 = k then some p.2 else dictGet rest k

/-- `d[k] = v`: overwrite in place when the key is present (insertion order
kept), append otherwise — Python dict assignment semantics. -/
def dictSet (d : PyDict) (k : Int) (v : Nat) : PyDict :=
  match d with
  | [] => [(k, v)]
  | p :: rest => if p.1 = k then (k, v) :: rest else p :: dictSet rest k v

/-- `k in d`. -/
def dictMem (d : PyDict) (k : Int) : Bool :=
  (dictGet d k).isSome

/-- Embedding of `Leaderboard` (dataclass in `leaderboard.py`). -/
structure Leaderboard where
  entries : List LeaderboardEntry := []
  user_ids : PyDict := []
deriving Repr, DecidableEq, Inhabited

/-- The entry-field part of `Leaderboard._reindex`: walking `entries` from
position `i` on, each entry gets `last_rank := rank` and `rank := index + 1`. -/
def reindexEntries (i : Nat) : List LeaderboardEntry → List LeaderboardEntry
  | [] => []
  | e :: rest =>
      { e with last_rank := e.rank, rank := (i : Int) + 1 } :: reindexEntries (i + 1) rest

/-- The index-map part of `Leaderboard._reindex`: walking `entries` from
position `i` on, set `user_ids[entry.user_id] = index`.  Keys of removed
entries are never deleted, exactly as in the source. -/
def reindexIds (i : Nat) (entries : List LeaderboardEntry) (d : PyDict) : PyDict :=
  match entries with
  | [] => d
  | e :: rest => reindexIds (i + 1) rest (dictSet d e.user_id i)

/-- `Leaderboard._reindex`. -/
def reindex (lb : Leaderboard) : Leaderboard :=
  { entries := reindexEntries 0 lb.entries,
    user_ids := reindexIds 0 lb.entries lb.user_ids }

/-- `bisect.bisect_right(a, x, lo, hi, key=lambda e: -e.highest_count)` — the
binary search loop of CPython's `bisect`, with the comparison
`x < key(a[mid])`.  Both call sites in the source pass `hi ≤ a.length`, so the
`getD` default is never consulted. -/
def bisectRight (x : Int) (a : List LeaderboardEntry) (lo hi : Nat) : Nat :=
  if h : lo < hi then
    if x < -(a.getD ((lo + hi) / 2) default).highest_count then
      bisectRight x a lo ((lo + hi) / 2)
    else
      bisectRight x a ((lo + hi) / 2 + 1) hi
  else
    lo
termination_by hi - lo
decreasing_by
  · omega
  · omega

/-- `bisect.insort_right(a, entry, key=lambda e: -e.highest_count)`: insert
`entry` at the position found by `bisect_right` over the whole list. -/
def insortRight (a : List LeaderboardEntry) (entry : LeaderboardEntry) : List LeaderboardEntry :=
  a.insertIdx (bisectRight (-entry.highest_count) a 0 a.length) entry

/-- `Leaderboard.record_entry(user_id, count)`.  Returns `none` when the
Python code would raise an `IndexError` (a stale `user_ids` index reaching
`self.entries[index]`); otherwise `some` of the new leaderboard and the
returned boolean. -/
def recordEntry (lb : Leaderboard) (user_id count : Int) :
    Option (Leaderboard × Bool) :=
  match dictGet lb.user_ids user_id with
  | none =>
      -- If the user doesn't exist, add them to the leaderboard.
      let entry : LeaderboardEntry := { user_id := user_id, highest_count := count, times_counted := 1 }
      some (reindex { lb with entries := insortRight lb.entries entry }, true)
  | some index =>
      match lb.entries[index]? with
      | none => none
      | some entry =>
          let entry1 := { entry with times_counted := entry.times_counted + 1 }
          if entry1.highest_count < count then
            let entry2 := { entry1 with
              last_highest_count := entry1.highest_count, highest_count := count }
            let entries1 := lb.entries.set index entry2
            if 0 < index ∧ (entries1.getD (index - 1) default).highest_count < count then
              let newIndex := bisectRight (-count) entries1 0 index
              let entries2 := (entries1.eraseIdx index).insertIdx newIndex entry2
              some (reindex { lb with entries := entries2 }, true)
            else
              some ({ lb with entries := entries1 }, false)
          else
            some ({ lb with entries := lb.entries.set index entry1 }, false)

/-- `Leaderboard.remove_entry(user_id)`.  `none` models the `IndexError`
raised by `del self.entries[entry_index]` on a stale out-of-range index. -/
def removeEntry (lb : Leaderboard) (user_id : Int) : Option Leaderboard :=
  match dictGet lb.user_ids user_id with
  | none => some lb
  | some index =>
      if index < lb.entries.length then
        some (reindex { lb with entries := lb.entries.eraseIdx index })
      else
        none

/-- Result of a Python lookup that may return a value, return `None`, or
raise `IndexError`. -/
inductive LookupResult (α : Type) where
  | found (a : α)
  | notFound
  | error
deriving Repr, DecidableEq

/-- `Leaderboard.get_entry(user_id)`. -/
def getEntry (lb : Leaderboard) (user_id : Int) : LookupResult LeaderboardEntry :=
  match dictGet lb.user_ids user_id with
  | none => .notFound
  | some index =>
      match lb.entries[index]? with
      | none => .error
      | some e => .found e

/-- `Leaderboard.get_entry_by_rank(rank)` (1-based, `Int` argument). -/
def getEntryByRank (lb : Leaderboard) (rank : Int) : LookupResult LeaderboardEntry :=
  if 1 ≤ rank ∧ rank ≤ lb.entries.length then
    match lb.entries[(rank - 1).toNat]? with
    | none => .error
    | some e => .found e
  else
    .notFound

/-- `Leaderboard.top_entries(n)` = `self.entries[:n]` (for `n ≥ 0`). -/
def topEntries (lb : Leaderboard) (n : Nat) : List LeaderboardEntry :=
  lb.entries.take n

/-- `Leaderboard.highest_count(user_id)`. -/
def highestCount (lb : Leaderboard) (user_id : Int) : LookupResult Int :=
  match dictGet lb.user_ids user_id with
  | none => .notFound
  | some index =>
      match lb.entries[index]? with
      | none => .error
      | some e => .found e.highest_count

/-- `Leaderboard.last_highest_count(user_id)`. -/
def lastHighestCount (lb : Leaderboard) (user_id : Int) : LookupResult Int :=
  match dictGet lb.user_ids user_id with
  | none => .notFound
  | some index =>
      match lb.entries[index]? with
      | none => .error
      | some e => .found e.last_highest_count

/-- `Leaderboard.rank(user_id)`. -/
def rankOf (lb : Leaderboard) (user_id : Int) : LookupResult Int :=
  match dictGet lb.user_ids user_id with
  | none => .notFound
  | some index =>
      match lb.entries[index]? with
      | none => .error
      | some e => .found e.rank

/-- `Leaderboard.last_rank(user_id)`. -/
def lastRankOf (lb : Leaderboard) (user_id : Int) : LookupResult Int :=
  match dictGet lb.user_ids user_id with
  | none => .notFound
  | some index =>
      match lb.entries[index]? with
      | none => .error
      | some e => .found e.last_rank

/-- `entries` sorted descending by `highest_count`. -/
def SortedDesc (l : List LeaderboardEntry) : Prop :=
  l.Pairwise (fun a b => b.highest_count ≤ a.highest_count)

instance : DecidablePred SortedDesc := fun l =>
  List.instDecidablePairwise l

/-- The dictionary produced by `LeaderboardEntry.to_dict` (fixed string keys,
so a record type is a faithful embedding). -/
structure EntryDict where
  user_id : Int
  highest_count : Int
  last_highest_count : Int
  times_counted : Int
  mistakes_made : Int
  rank : Int
  last_rank : Int
deriving Repr, DecidableEq

/-- `LeaderboardEntry.to_dict`. -/
def entryToDict (e : LeaderboardEntry) : EntryDict :=
  { user_id := e.user_id, highest_count := e.highest_count,
    last_highest_count := e.last_highest_count, times_counted := e.times_counted,
    mistakes_made := e.mistakes_made, rank := e.rank, last_rank := e.last_rank }

/-- `LeaderboardEntry.from_dict`: positional construction from the seven keys. -/
def entryFromDict (d : EntryDict) : LeaderboardEntry :=
  { user_id := d.user_id, highest_count := d.highest_count,
    last_highest_count := d.last_highest_count, times_counted := d.times_counted,
    mistakes_made := d.mistakes_made, rank := d.rank, last_rank := d.last_rank }

/-- The dictionary produced by `Leaderboard.to_dict`. -/
structure LeaderboardDict where
  entries : List EntryDict
  user_ids : PyDict
deriving Repr, DecidableEq

/-- `Leaderboard.to_dict`. -/
def leaderboardToDict (lb : Leaderboard) : LeaderboardDict :=
  { entries := lb.entries.map entryToDict, user_ids := lb.user_ids }

/-- `Leaderboard.from_dict`: rebuild `entries` from the entry dictionaries and
`user_ids` by iterating `data["user_ids"].items()` (keys already integers, so
`int(user_id)` is the identity). -/
def leaderboardFromDict (d : LeaderboardDict) : Leaderboard :=
  { entries := d.entries.map entryFromDict,
    user_ids := d.user_ids.map (fun p => (p.1, p.2)) }

/-- Embedding of the `Count` dataclass in `bot.py` (the `threading.Lock`
field carries no state and is dropped). -/
structure Count where
  count : Int := 0
  last_user_id : Option Int := none
  ignore_repeated_users : Bool := false
  leaderboard : Leaderboard := {}
deriving Repr, DecidableEq, Inhabited

namespace Count

/-- `Count.reset(count=0)`. -/
def reset (c : Count) (count : Int := 0) : Count :=
  { c with count := count, last_user_id := none }

/-- `Count.current_count` property. -/
def current_count (c : Count) : Int :=
  if c.count = 0 then 1 else c.count

/-- `Count.next_count` property. -/
def next_count (c : Count) : Int :=
  c.count + 1

/-- `Count.count_after_reset` property: the literal constant `1`. -/
def count_after_reset (_c : Count) : Int :=
  1

/-- `Count.can_user_increment(user_id)`. -/
def can_user_increment (c : Count) (user_id : Int) : Bool :=
  if c.ignore_repeated_users then true
  else decide (c.last_user_id ≠ some user_id)

/-- `Count.can_increment_to(value)`. -/
def can_increment_to (c : Count) (value : Int) : Bool :=
  decide (value = c.next_count)

/-- `Count.increment_to(value, user_id)`: `none` models a raised exception
(a failed `assert`, or an `IndexError` escaping `record_entry`); otherwise
`some` of the new state and the boolean forwarded from `record_entry`. -/
def increment_to (c : Count) (value user_id : Int) : Option (Count × Bool) :=
  if c.can_user_increment user_id && c.can_increment_to value then
    match recordEntry c.leaderboard user_id value with
    | none => none
    | some (lb, best) =>
        some ({ c with count := c.count + 1, last_user_id := some user_id,
                       leaderboard := lb }, best)
  else
    none

end Count

/-- The persisted document read by `Count.from_dict`: the three required keys
(`count`, `last_user_id`, `ignore_repeated_users`), plus the optional
`leaderboard` object and the optional legacy keys `highest_count` and
`highest_count_user` (`data.get(...)`, `none` = absent or null). -/
structure CountDict where
  count : Int
  last_user_id : Option Int
  ignore_repeated_users : Bool
  leaderboard : Option LeaderboardDict
  highest_count : Option Int
  highest_count_user : Option Int
deriving Repr, DecidableEq

/-- `Count.from_dict`: deserialize the leaderboard (or start one fresh), then
replay the legacy `highest_count`/`highest_count_user` pair through
`record_entry` when both are present.  `none` models an exception escaping
that `record_entry` call. -/
def Count.from_dict (data : CountDict) : Option Count :=
  let lb :=
    match data.leaderboard with
    | some d => leaderboardFromDict d
    | none => {}
  match data.highest_count, data.highest_count_user with
  | some hc, some hcu =>
      match recordEntry lb hcu hc with
      | none => none
      | some (lb2, _) =>
          some { count := data.count, last_user_id := data.last_user_id,
                 ignore_repeated_users := data.ignore_repeated_users,
                 leaderboard := lb2 }
  | _, _ =>
      some { count := data.count, last_user_id := data.last_user_id,
             ignore_repeated_users := data.ignore_repeated_users,
             leaderboard := lb }

/-- A character of a Python `str`, abstracted to exactly what
`parse_message` observes about it: whether `message[i].isdigit()` holds,
and, when it does, whether `int` accepts it and with which decimal value.
Per the Python documentation, `str.isdigit` is true for characters with
Unicode property `Numeric_Type` equal to `Decimal` or `Digit`, while `int`
accepts only the `Decimal` ones (general category Nd), reading each by its
decimal value.  So every Python character falls in exactly one class:

* `decimalDigit v` — `isdigit` true and `int`-accepted with value `v`;
  for example DIGIT FIVE (`v = 5`) or ARABIC-INDIC DIGIT THREE (`v = 3`);
* `digitNonDecimal` — `isdigit` true but `int`-rejected; for example
  SUPERSCRIPT TWO (U+00B2), whose `Numeric_Type` is `Digit`;
* `nonDigit` — `isdigit` false; any letter, space or punctuation.

Classification itself is the Unicode character database, not code of the
repository, so it is not re-modelled: a Python string is embedded as the
list of the classes of its characters. -/
inductive PyChar where
  | decimalDigit (v : Nat)
  | digitNonDecimal
  | nonDigit
deriving Repr, DecidableEq

/-- `message[i].isdigit()`. -/
def pyIsDigitChar : PyChar → Bool
  | .decimalDigit _ => true
  | .digitNonDecimal => true
  | .nonDigit => false

/-- The `while` loop of `parse_message`: collect the maximal leading run of
`isdigit` characters. -/
def leadingDigits : List PyChar → List PyChar
  | [] => []
  | ch :: rest => if pyIsDigitChar ch then ch :: leadingDigits rest else []

/-- Python `int(s)` on the collected run: defined when every character is a
decimal digit, the base-10 fold of the digit values; `none` models the
`ValueError` that `int` raises on any other character (such as a
`Numeric_Type=Digit` superscript, which `str.isdigit` lets through). -/
def pyInt (acc : Nat) : List PyChar → Option Nat
  | [] => some acc
  | .decimalDigit v :: rest => pyInt (acc * 10 + v) rest
  | .digitNonDecimal :: _ => none
  | .nonDigit :: _ => none

/-- Result of `parse_message`: a parsed number, the `None` of "not a
submission", or an escaping `ValueError` from `int`. -/
inductive ParseOutcome where
  | value (n : Nat)
  | notSubmission
  | valueError
deriving Repr, DecidableEq

/-- `parse_message(message)` from `bot.py`. -/
def parse_message (message : List PyChar) : ParseOutcome :=
  if message.length = 0 then
    .notSubmission
  else
    let number := leadingDigits message
    if number.length = 0 then
      .notSubmission
    else
      match pyInt 0 number with
      | some n => .value n
      | none => .valueError

/-! ### Basic facts and concrete evaluations -/

/-- C9: `reset(b)` sets `count = b`, clears `last_user_id`, and leaves the
leaderboard (hence every entry and the index map) and the configuration flag
completely unchanged. -/
theorem reset_frame (c : Count) (b : Int) :
    (c.reset b).count = b ∧ (c.reset b).last_user_id = none ∧
      (c.reset b).leaderboard = c.leaderboard ∧
      (c.reset b).ignore_repeated_users = c.ignore_repeated_users :=
  ⟨rfl, rfl, rfl, rfl⟩

/-- C3 counterexample: after `reset(5)` the value communicated to users,
`count_after_reset`, is `1`, not `5 + 1`. -/
theorem count_after_reset_counterexample :
    (Count.reset {} 5).count_after_reset ≠ 5 + 1 := by
  decide

/-- C3 amended: after `reset(b)` the post-reset expected value
`count_after_reset` is the constant `1`; it equals `b + 1` exactly when the
baseline is the default `0`. -/
theorem count_after_reset_eq_one (c : Count) (b : Int) :
    (c.reset b).count_after_reset = 1 ∧
      ((c.reset b).count_after_reset = b + 1 ↔ b = 0) := by
  refine ⟨rfl, ?_⟩
  show (1 : Int) = b + 1 ↔ b = 0
  omega

/-- C7: serializing a leaderboard and deserializing it back reconstructs an
equal leaderboard — same entry order, all seven fields of every entry, and
the `user_ids` index map. -/
theorem leaderboard_roundtrip (lb : Leaderboard) :
    leaderboardFromDict (leaderboardToDict lb) = lb := by
  cases lb with
  | mk entries user_ids =>
      simp only [leaderboardToDict, leaderboardFromDict, List.map_map,
        Leaderboard.mk.injEq]
      constructor
      · have : entryFromDict ∘ entryToDict = id := by
          funext e
          cases e
          rfl
        simp [this]
      · simp

/-- C1: code-bug evidence.  User `1` holds `highest_count = 1`;
`record_entry(1, 2)` raises the personal best to `2` (the count strictly
exceeds the stored best) yet returns `False`, because the entry already sits
at index 0 and never relocates. -/
theorem recordEntry_false_despite_new_best :
    recordEntry ⟨[⟨1, 1, 0, 1, 0, 1, 0⟩], [(1, 0)]⟩ 1 2 =
        some (⟨[⟨1, 2, 1, 2, 0, 1, 0⟩], [(1, 0)]⟩, false) ∧
      (1 : Int) < 2 := by
  decide

/-- C2: code-bug evidence.  Removing the only entry (user `1`) empties
`entries` but leaves the stale key `1 ↦ 0` in `user_ids`: the index map does
not contain exactly the user ids occurring in `entries`. -/
theorem removeEntry_leaves_stale_index :
    removeEntry ⟨[⟨1, 1, 0, 1, 0, 1, 0⟩], [(1, 0)]⟩ 1 = some ⟨[], [(1, 0)]⟩ ∧
      dictMem [(1, 0)] 1 = true := by
  decide

/-- C5: code-bug evidence.  The state reached from the empty leaderboard by
`record_entry(1, 1)` then `remove_entry(1)` makes `get_entry(1)` hit
`self.entries[0]` on an empty list: an `IndexError`, not "not found". -/
theorem getEntry_raises_after_remove :
    recordEntry ⟨[], []⟩ 1 1 =
        some (⟨[⟨1, 1, 0, 1, 0, 1, 0⟩], [(1, 0)]⟩, true) ∧
      removeEntry ⟨[⟨1, 1, 0, 1, 0, 1, 0⟩], [(1, 0)]⟩ 1 = some ⟨[], [(1, 0)]⟩ ∧
      getEntry ⟨[], [(1, 0)]⟩ 1 = .error := by
  refine ⟨?_, by decide, by decide⟩
  simp [recordEntry, dictGet, insortRight, bisectRight, reindex,
    reindexEntries, reindexIds, dictSet]

/-- The digit-collecting loop of `parse_message` computes the maximal
leading run of `isdigit` characters. -/
theorem leadingDigits_eq_takeWhile (l : List PyChar) :
    leadingDigits l = l.takeWhile pyIsDigitChar := by
  induction l with
  | nil => rfl
  | cons ch rest ih =>
      by_cases h : pyIsDigitChar ch
      · simp [leadingDigits, List.takeWhile_cons, h, ih]
      · simp [leadingDigits, List.takeWhile_cons, h]

theorem pyInt_eq_foldl :
    ∀ (l : List PyChar) (acc : Nat),
      (∀ ch ∈ l, ∃ v, ch = PyChar.decimalDigit v) →
      pyInt acc l = some (l.foldl
        (fun n ch => n * 10 + match ch with | .decimalDigit v => v | _ => 0)
        acc) := by
  intro l
  induction l with
  | nil =>
      intro acc _
      rfl
  | cons ch rest ih =>
      intro acc hdec
      obtain ⟨v, hv⟩ := hdec ch (List.mem_cons_self ch rest)
      subst hv
      simp only [pyInt, List.foldl_cons]
      exact ih (acc * 10 + v) (fun ch hch => hdec ch (List.mem_cons_of_mem _ hch))

/-- C8: code-bug evidence.  The one-character message SUPERSCRIPT TWO is
collected by the loop (`str.isdigit` holds) but rejected by `int`, so
`parse_message` raises `ValueError` where the claim — and the docstring
("The number in the message if any, None otherwise") and the spec
("not an error... silently ignored") — require a number or `None`.  Runs of
decimal digits still parse as claimed: ARABIC-INDIC DIGIT THREE followed by
DIGIT THREE gives 33, "5!" gives 5, and the empty or non-digit-leading
messages give "not a submission". -/
theorem parse_message_valueerror_on_digit_nondecimal :
    parse_message [.digitNonDecimal] = .valueError ∧
      parse_message [.decimalDigit 3, .decimalDigit 3] = .value 33 ∧
      parse_message [.decimalDigit 5, .nonDigit] = .value 5 ∧
      parse_message [] = .notSubmission ∧
      parse_message [.nonDigit, .decimalDigit 5] = .notSubmission := by
  decide

/-- On messages free of `Numeric_Type=Digit` outliers — every character a
decimal digit or not a digit at all — `parse_message` does behave as claim
C8 states: "not a submission" exactly on the empty message or a leading
non-digit, else the number formed by the maximal leading digit run, the
rest ignored. -/
theorem parse_message_decimal_only (message : List PyChar)
    (hdec : PyChar.digitNonDecimal ∉ message) :
    parse_message message =
      match message with
      | [] => ParseOutcome.notSubmission
      | ch :: _ =>
          if pyIsDigitChar ch then
            ParseOutcome.value ((message.takeWhile pyIsDigitChar).foldl
              (fun n ch => n * 10 + match ch with | .decimalDigit v => v | _ => 0)
              0)
          else
            ParseOutcome.notSubmission := by
  cases message with
  | nil => rfl
  | cons ch rest =>
      by_cases h : pyIsDigitChar ch
      · have hall : ∀ c ∈ (ch :: rest).takeWhile pyIsDigitChar,
            ∃ v, c = PyChar.decimalDigit v := by
          intro c hc
          have hdig : pyIsDigitChar c = true := List.mem_takeWhile_imp hc
          have hmem : c ∈ ch :: rest :=
            (List.takeWhile_sublist pyIsDigitChar).subset hc
          cases c with
          | decimalDigit v => exact ⟨v, rfl⟩
          | digitNonDecimal => exact absurd hmem hdec
          | nonDigit => exact absurd hdig (by simp [pyIsDigitChar])
        have hrun := pyInt_eq_foldl ((ch :: rest).takeWhile pyIsDigitChar) 0 hall
        simp [parse_message, leadingDigits_eq_takeWhile, List.takeWhile_cons, h,
          List.takeWhile_cons, hrun]
        rw [List.takeWhile_cons, if_pos h] at hrun
        simp [hrun]
      · simp [parse_message, leadingDigits_eq_takeWhile, List.takeWhile_cons, h]

/-- C6: when both guard checks pass, `increment_to(value, user_id)` bumps
`count` by one (reaching exactly `value`), records `user_id` as the last
submitter, forwards `(user_id, value)` to `record_entry` once, and returns
exactly what that call returns. -/
theorem increment_to_spec (c : Count) (value user_id : Int)
    (h1 : c.can_user_increment user_id = true)
    (h2 : c.can_increment_to value = true) :
    c.count + 1 = value ∧
      Count.increment_to c value user_id =
        (recordEntry c.leaderboard user_id value).map
          (fun p => ({ c with count := c.count + 1,
                              last_user_id := some user_id,
                              leaderboard := p.1 }, p.2)) := by
  have hv : value = c.count + 1 := by
    simpa [Count.can_increment_to, Count.next_count] using h2
  refine ⟨hv.symm, ?_⟩
  simp only [Count.increment_to, h1, h2, Bool.and_self, if_true]
  cases recordEntry c.leaderboard user_id value with
  | none => rfl
  | some p => rfl

/-- A concrete `Count` state: running count 3, nobody has submitted since
the last reset, user 5 on the leaderboard with best 10. -/
def sampleCount : Count :=
  { count := 3, last_user_id := none, ignore_repeated_users := false,
    leaderboard := ⟨[⟨5, 10, 0, 1, 0, 1, 0⟩], [(5, 0)]⟩ }

theorem increment_to_spec_witness :
    sampleCount.count + 1 = 4 ∧
      Count.increment_to sampleCount 4 5 =
        (recordEntry sampleCount.leaderboard 5 4).map
          (fun p => ({ sampleCount with
                        count := sampleCount.count + 1,
                        last_user_id := some 5,
                        leaderboard := p.1 }, p.2)) :=
  increment_to_spec sampleCount 4 5 (by decide) (by decide)

/-- C10: when the persisted document carries both legacy keys
`highest_count` and `highest_count_user` with non-null values, `from_dict`
replays them through `record_entry` on the deserialized leaderboard even
when a `leaderboard` object is present, so the loaded leaderboard is the
`record_entry`-mutated one, not the serialized one. -/
theorem from_dict_replays_legacy_keys (data : CountDict) (d : LeaderboardDict)
    (hc hcu : Int)
    (h1 : data.leaderboard = some d)
    (h2 : data.highest_count = some hc)
    (h3 : data.highest_count_user = some hcu) :
    Count.from_dict data =
      (recordEntry (leaderboardFromDict d) hcu hc).map
        (fun p => { count := data.count, last_user_id := data.last_user_id,
                    ignore_repeated_users := data.ignore_repeated_users,
                    leaderboard := p.1 }) := by
  simp only [Count.from_dict, h1, h2, h3]
  cases recordEntry (leaderboardFromDict d) hcu hc with
  | none => rfl
  | some p => rfl

/-- A concrete persisted document: a serialized leaderboard for user 1 with
best 5 next to the legacy pair `highest_count = 3`, `highest_count_user = 1`. -/
def sampleDoc : CountDict :=
  { count := 7, last_user_id := some 2, ignore_repeated_users := false,
    leaderboard := some ⟨[⟨1, 5, 0, 1, 0, 1, 0⟩], [(1, 0)]⟩,
    highest_count := some 3, highest_count_user := some 1 }

theorem from_dict_replays_legacy_keys_witness :
    Count.from_dict sampleDoc =
      (recordEntry (leaderboardFromDict ⟨[⟨1, 5, 0, 1, 0, 1, 0⟩], [(1, 0)]⟩) 1 3).map
        (fun p => { count := sampleDoc.count, last_user_id := sampleDoc.last_user_id,
                    ignore_repeated_users := sampleDoc.ignore_repeated_users,
                    leaderboard := p.1 }) :=
  from_dict_replays_legacy_keys sampleDoc ⟨[⟨1, 5, 0, 1, 0, 1, 0⟩], [(1, 0)]⟩ 3 1
    rfl rfl rfl

/-! ### Binary-search lemmas for `bisectRight` -/

/-- Short-hand for the bisect key `-entry.highest_count` read through `getD`. -/
def keyAt (a : List LeaderboardEntry) (j : Nat) : Int :=
  -(a.getD j default).highest_count

theorem keyAt_eq (a : List LeaderboardEntry) (j : Nat) (h : j < a.length) :
    keyAt a j = -(a[j]).highest_count := by
  simp [keyAt, List.getD_eq_getElem?_getD, List.getElem?_eq_getElem h]

theorem bisectRight_bounds (x : Int) (a : List LeaderboardEntry) :
    ∀ (fuel lo hi : Nat), hi - lo ≤ fuel → lo ≤ hi →
      lo ≤ bisectRight x a lo hi ∧ bisectRight x a lo hi ≤ hi := by
  intro fuel
  induction fuel with
  | zero =>
      intro lo hi hf hle
      have hnot : ¬ lo < hi := by omega
      rw [bisectRight.eq_def]
      simp only [hnot, dite_false]
      omega
  | succ n ih =>
      intro lo hi hf hle
      rw [bisectRight.eq_def]
      by_cases hlt : lo < hi
      · simp only [hlt, dite_true]
        by_cases hcmp : x < -(a.getD ((lo + hi) / 2) default).highest_count
        · simp only [hcmp, if_true]
          have := ih lo ((lo + hi) / 2) (by omega) (by omega)
          omega
        · simp only [hcmp, if_false]
          have := ih ((lo + hi) / 2 + 1) hi (by omega) (by omega)
          omega
      · simp only [hlt, dite_false]
        omega

/-- Every position strictly below the insertion point found by
`bisectRight` carries a key `≤ x`, provided keys are monotone below `hi` and
the positions already below `lo` do. -/
theorem bisectRight_key_le (x : Int) (a : List LeaderboardEntry) :
    ∀ (fuel lo hi : Nat), hi - lo ≤ fuel → lo ≤ hi →
      (∀ i j, i ≤ j → j < hi → keyAt a i ≤ keyAt a j) →
      (∀ j, j < lo → keyAt a j ≤ x) →
      ∀ j, j < bisectRight x a lo hi → keyAt a j ≤ x := by
  intro fuel
  induction fuel with
  | zero =>
      intro lo hi hf hle _hmono hlo j hj
      have hnot : ¬ lo < hi := by omega
      rw [bisectRight.eq_def] at hj
      simp only [hnot, dite_false] at hj
      exact hlo j hj
  | succ n ih =>
      intro lo hi hf hle hmono hlo j hj
      rw [bisectRight.eq_def] at hj
      by_cases hlt : lo < hi
      · simp only [hlt, dite_true] at hj
        by_cases hcmp : x < -(a.getD ((lo + hi) / 2) default).highest_count
        · simp only [hcmp, if_true] at hj
          exact ih lo ((lo + hi) / 2) (by omega) (by omega)
            (fun i j' hij hj' => hmono i j' hij (by omega)) hlo j hj
        · simp only [hcmp, if_false] at hj
          refine ih ((lo + hi) / 2 + 1) hi (by omega) (by omega) hmono ?_ j hj
          intro j' hj'
          by_cases hj'lo : j' < lo
          · exact hlo j' hj'lo
          · have hmid : keyAt a j' ≤ keyAt a ((lo + hi) / 2) :=
              hmono j' ((lo + hi) / 2) (by omega) (by omega)
            have : keyAt a ((lo + hi) / 2) ≤ x := by
              simpa [keyAt] using hcmp
            omega
      · simp only [hlt, dite_false] at hj
        exact hlo j hj

/-- Every position from the insertion point found by `bisectRight` up to
`hi` carries a key `> x`, provided keys are monotone below `hi`. -/
theorem bisectRight_key_gt (x : Int) (a : List LeaderboardEntry) :
    ∀ (fuel lo hi : Nat), hi - lo ≤ fuel →
      (∀ i j, i ≤ j → j < hi → keyAt a i ≤ keyAt a j) →
      ∀ j, bisectRight x a lo hi ≤ j → j < hi → x < keyAt a j := by
  intro fuel
  induction fuel with
  | zero =>
      intro lo hi hf _hmono j hj1 hj2
      have hnot : ¬ lo < hi := by omega
      rw [bisectRight.eq_def] at hj1
      simp only [hnot, dite_false] at hj1
      omega
  | succ n ih =>
      intro lo hi hf hmono j hj1 hj2
      rw [bisectRight.eq_def] at hj1
      by_cases hlt : lo < hi
      · simp only [hlt, dite_true] at hj1
        by_cases hcmp : x < -(a.getD ((lo + hi) / 2) default).highest_count
        · simp only [hcmp, if_true] at hj1
          by_cases hjmid : j < (lo + hi) / 2
          · exact ih lo ((lo + hi) / 2) (by omega)
              (fun i j' hij hj' => hmono i j' hij (by omega)) j hj1 hjmid
          · have hcmp' : x < keyAt a ((lo + hi) / 2) := by
              simpa [keyAt] using hcmp
            have := hmono ((lo + hi) / 2) j (by omega) hj2
            omega
        · simp only [hcmp, if_false] at hj1
          exact ih ((lo + hi) / 2 + 1) hi (by omega) hmono j hj1 hj2
      · simp only [hlt, dite_false] at hj1
        omega

/-! ### Sortedness toolkit -/

theorem sortedDesc_iff_keyAt (a : List LeaderboardEntry) :
    SortedDesc a ↔ ∀ i j, i ≤ j → j < a.length → keyAt a i ≤ keyAt a j := by
  rw [SortedDesc, List.pairwise_iff_getElem]
  constructor
  · intro h i j hij hj
    rcases Nat.lt_or_ge i j with hlt | hge
    · have := h i j (by omega) hj hlt
      rw [keyAt_eq a i (by omega), keyAt_eq a j hj]
      omega
    · have : i = j := by omega
      subst this
      exact le_refl _
  · intro h i j hi hj hij
    have := h i j (by omega) hj
    rw [keyAt_eq a i hi, keyAt_eq a j hj] at this
    omega

/-- Element description of `insertIdx` through `getElem?`. -/
theorem getElem?_insertIdx_cases (x : LeaderboardEntry) :
    ∀ (a : List LeaderboardEntry) (k j : Nat), k ≤ a.length →
      (a.insertIdx k x)[j]? =
        if j < k then a[j]? else if j = k then some x else a[j - 1]? := by
  intro a
  induction a with
  | nil =>
      intro k j hk
      have hk0 : k = 0 := by simpa using hk
      subst hk0
      cases j with
      | zero => simp
      | succ j => simp
  | cons e rest ih =>
      intro k j hk
      cases k with
      | zero =>
          cases j with
          | zero => simp
          | succ j => simp
      | succ k =>
          cases j with
          | zero => simp
          | succ j =>
              have hk' : k ≤ rest.length := by simpa using hk
              simp only [List.insertIdx_succ_cons, List.getElem?_cons_succ,
                ih k j hk']
              by_cases h1 : j < k
              · simp [h1, Nat.succ_lt_succ_iff]
              · by_cases h2 : j = k
                · simp [h1, h2]
                · have hj1 : ¬ j + 1 < k + 1 := by omega
                  have hj2 : ¬ j + 1 = k + 1 := by omega
                  have hjge : 1 ≤ j := by omega
                  simp only [h1, h2, if_false, hj1, hj2]
                  rw [Nat.succ_sub_one]
                  cases j with
                  | zero => omega
                  | succ m => simp

theorem keyAt_insertIdx (x : LeaderboardEntry) (a : List LeaderboardEntry)
    (k j : Nat) (hk : k ≤ a.length) :
    keyAt (a.insertIdx k x) j =
      if j < k then keyAt a j
      else if j = k then -x.highest_count
      else keyAt a (j - 1) := by
  simp only [keyAt, List.getD_eq_getElem?_getD, getElem?_insertIdx_cases x a k j hk]
  by_cases h1 : j < k
  · simp [h1]
  · by_cases h2 : j = k
    · simp [h1, h2]
    · simp [h1, h2]

/-- Inserting at a position whose left neighbours all have key at most the
new key, and whose right neighbours all have key at least the new key,
preserves descending sortedness. -/
theorem sortedDesc_insertIdx (a : List LeaderboardEntry) (x : LeaderboardEntry)
    (k : Nat) (hk : k ≤ a.length) (hs : SortedDesc a)
    (h1 : ∀ j, j < k → keyAt a j ≤ -x.highest_count)
    (h2 : ∀ j, k ≤ j → j < a.length → -x.highest_count ≤ keyAt a j) :
    SortedDesc (a.insertIdx k x) := by
  have hmono := (sortedDesc_iff_keyAt a).mp hs
  rw [sortedDesc_iff_keyAt]
  intro i j hij hj
  have hlen : (a.insertIdx k x).length = a.length + 1 :=
    List.length_insertIdx k a hk
  rw [hlen] at hj
  rw [keyAt_insertIdx x a k i hk, keyAt_insertIdx x a k j hk]
  by_cases hik : i < k
  · rw [if_pos hik]
    by_cases hjk : j < k
    · rw [if_pos hjk]
      exact hmono i j hij (by omega)
    · rw [if_neg hjk]
      by_cases hjk' : j = k
      · rw [if_pos hjk']
        exact h1 i hik
      · rw [if_neg hjk']
        exact hmono i (j - 1) (by omega) (by omega)
  · rw [if_neg hik]
    by_cases hik' : i = k
    · rw [if_pos hik']
      by_cases hjk : j < k
      · exact absurd (lt_of_le_of_lt hij hjk) hik
      · rw [if_neg hjk]
        by_cases hjk' : j = k
        · rw [if_pos hjk']
        · rw [if_neg hjk']
          exact h2 (j - 1) (by omega) (by omega)
    · by_cases hjk : j < k
      · exact absurd (lt_of_le_of_lt hij hjk) hik
      · rw [if_neg hik', if_neg hjk]
        by_cases hjk' : j = k
        · exact absurd hjk' (by omega)
        · rw [if_neg hjk']
          exact hmono (i - 1) (j - 1) (by omega) (by omega)

/-- `reindexEntries` only rewrites `rank`/`last_rank`: the projection to
`highest_count` is unchanged. -/
theorem reindexEntries_map_hc :
    ∀ (i : Nat) (l : List LeaderboardEntry),
      (reindexEntries i l).map (fun e => e.highest_count) =
        l.map (fun e => e.highest_count) := by
  intro i l
  induction l generalizing i with
  | nil => rfl
  | cons e rest ih => simp [reindexEntries, ih]

theorem sortedDesc_iff_map (l : List LeaderboardEntry) :
    SortedDesc l ↔
      (l.map (fun e => e.highest_count)).Pairwise (fun a b => b ≤ a) := by
  rw [SortedDesc, List.pairwise_map]

theorem sortedDesc_reindexEntries (i : Nat) (l : List LeaderboardEntry)
    (hs : SortedDesc l) : SortedDesc (reindexEntries i l) := by
  rw [sortedDesc_iff_map, reindexEntries_map_hc, ← sortedDesc_iff_map]
  exact hs

theorem keyAt_set_ne (a : List LeaderboardEntry) (i : Nat)
    (v : LeaderboardEntry) (j : Nat) (h : i ≠ j) :
    keyAt (a.set i v) j = keyAt a j := by
  simp [keyAt, List.getD_eq_getElem?_getD, List.getElem?_set_ne h]

theorem set_eraseIdx_same (a : List LeaderboardEntry) (i : Nat)
    (v : LeaderboardEntry) :
    (a.set i v).eraseIdx i = a.eraseIdx i := by
  apply List.ext_getElem?
  intro n
  rw [List.getElem?_eraseIdx, List.getElem?_eraseIdx]
  by_cases h : n < i
  · rw [if_pos h, if_pos h, List.getElem?_set_ne (by omega)]
  · rw [if_neg h, if_neg h, List.getElem?_set_ne (by omega)]

theorem keyAt_eraseIdx_of_lt (a : List LeaderboardEntry) (i j : Nat)
    (h : j < i) : keyAt (a.eraseIdx i) j = keyAt a j := by
  simp [keyAt, List.getD_eq_getElem?_getD, List.getElem?_eraseIdx_of_lt a i j h]

theorem keyAt_eraseIdx_of_ge (a : List LeaderboardEntry) (i j : Nat)
    (h : i ≤ j) : keyAt (a.eraseIdx i) j = keyAt a (j + 1) := by
  simp [keyAt, List.getD_eq_getElem?_getD, List.getElem?_eraseIdx_of_ge a i j h]

theorem sortedDesc_eraseIdx (a : List LeaderboardEntry) (i : Nat)
    (hs : SortedDesc a) : SortedDesc (a.eraseIdx i) :=
  List.Pairwise.sublist (List.eraseIdx_sublist a i) hs

/-- Overwriting position `i` with an entry whose score fits between its
neighbours keeps the list sorted. -/
theorem sortedDesc_set (a : List LeaderboardEntry) (i : Nat)
    (v : LeaderboardEntry) (hi : i < a.length) (hs : SortedDesc a)
    (h1 : ∀ j, j < i → keyAt a j ≤ -v.highest_count)
    (h2 : ∀ j, i < j → j < a.length → -v.highest_count ≤ keyAt a j) :
    SortedDesc (a.set i v) := by
  have hmono := (sortedDesc_iff_keyAt a).mp hs
  rw [sortedDesc_iff_keyAt]
  intro p q hpq hq
  rw [List.length_set] at hq
  have hkv : keyAt (a.set i v) i = -v.highest_count := by
    simp [keyAt, List.getD_eq_getElem?_getD, List.getElem?_set_self hi]
  by_cases hp : p = i
  · subst hp
    by_cases hq' : q = p
    · subst hq'
      exact le_refl _
    · rw [hkv, keyAt_set_ne a p v q (by omega)]
      exact h2 q (by omega) hq
  · rw [keyAt_set_ne a i v p (by omega)]
    by_cases hq' : q = i
    · subst hq'
      rw [hkv]
      exact h1 p (by omega)
    · rw [keyAt_set_ne a i v q (by omega)]
      exact hmono p q hpq hq

/-- If the first `k` positions of `a` have score `≥ c` and all later
positions have score `< c`, then `k` counts the entries with score `≥ c`. -/
theorem countP_ge_eq_of_boundary (a : List LeaderboardEntry) (c : Int) (k : Nat)
    (hk : k ≤ a.length)
    (h1 : ∀ j, j < k → keyAt a j ≤ -c)
    (h2 : ∀ j, k ≤ j → j < a.length → -c < keyAt a j) :
    a.countP (fun e => decide (c ≤ e.highest_count)) = k := by
  conv_lhs => rw [← List.take_append_drop k a]
  rw [List.countP_append]
  have htake : (a.take k).countP (fun e => decide (c ≤ e.highest_count)) = k := by
    have hlen : (a.take k).length = k := by
      rw [List.length_take]
      omega
    have hall : ∀ e ∈ a.take k, decide (c ≤ e.highest_count) = true := by
      intro e he
      obtain ⟨j, hj, hje⟩ := List.mem_iff_getElem.mp he
      have hjk : j < k := by
        rw [List.length_take] at hj
        omega
      have hjlen : j < a.length := by
        rw [List.length_take] at hj
        omega
      have hkey := h1 j hjk
      rw [keyAt_eq a j hjlen] at hkey
      have : c ≤ (a[j]).highest_count := by omega
      rw [← hje, List.getElem_take]
      simpa using this
    rw [List.countP_eq_length.mpr hall, hlen]
  have hdrop : (a.drop k).countP (fun e => decide (c ≤ e.highest_count)) = 0 := by
    rw [List.countP_eq_zero]
    intro e he
    obtain ⟨j, hj, hje⟩ := List.mem_iff_getElem.mp he
    have hjlen : k + j < a.length := by
      rw [List.length_drop] at hj
      omega
    have hkey := h2 (k + j) (by omega) hjlen
    rw [keyAt_eq a (k + j) hjlen] at hkey
    have hlt : (a[k + j]).highest_count < c := by omega
    rw [← hje, List.getElem_drop]
    simp only [decide_eq_true_eq]
    omega
  rw [htake, hdrop]
  omega

set_option maxHeartbeats 1000000 in
/-- C4: on a state whose entries are sorted descending by `highest_count`,
`record_entry` keeps them sorted descending, and ties stay stable: a first
insertion lands after all entries with score `≥ count` (so after existing
equal scores), and an entry whose raised score merely equals the entry above
it does not relocate (strict `<` comparison) — it stays below, in place. -/
theorem recordEntry_sorted_stable (lb : Leaderboard) (u c : Int)
    (lb' : Leaderboard) (b : Bool)
    (hs : SortedDesc lb.entries)
    (h : recordEntry lb u c = some (lb', b)) :
    SortedDesc lb'.entries
    ∧ (dictGet lb.user_ids u = none →
         lb'.entries = reindexEntries 0 (lb.entries.insertIdx
           (lb.entries.countP (fun e => decide (c ≤ e.highest_count)))
           { user_id := u, highest_count := c, times_counted := 1 }))
    ∧ (∀ i e, dictGet lb.user_ids u = some i → lb.entries[i]? = some e →
         e.highest_count < c → 0 < i →
         (lb.entries.getD (i - 1) default).highest_count = c →
         lb'.entries = lb.entries.set i
             { e with times_counted := e.times_counted + 1,
                      last_highest_count := e.highest_count,
                      highest_count := c } ∧
           lb'.user_ids = lb.user_ids ∧ b = false) := by
  have hmono := (sortedDesc_iff_keyAt lb.entries).mp hs
  cases hd : dictGet lb.user_ids u with
  | none =>
      simp only [recordEntry, hd] at h
      simp only [Option.some.injEq, Prod.mk.injEq] at h
      obtain ⟨hlb, hb⟩ := h
      subst hlb
      subst hb
      have hbounds := bisectRight_bounds (-c) lb.entries lb.entries.length 0
        lb.entries.length (by omega) (by omega)
      have hleft := bisectRight_key_le (-c) lb.entries lb.entries.length 0
        lb.entries.length (by omega) (by omega)
        (fun i j hij hj => hmono i j hij hj)
        (fun j hj => absurd hj (Nat.not_lt_zero j))
      have hright := bisectRight_key_gt (-c) lb.entries lb.entries.length 0
        lb.entries.length (by omega)
        (fun i j hij hj => hmono i j hij hj)
      have hsorted2 : SortedDesc (lb.entries.insertIdx
          (bisectRight (-c) lb.entries 0 lb.entries.length)
          { user_id := u, highest_count := c, times_counted := 1 }) := by
        apply sortedDesc_insertIdx lb.entries _ _ hbounds.2 hs
        · intro j hj
          exact hleft j hj
        · intro j hj1 hj2
          exact le_of_lt (hright j hj1 hj2)
      refine ⟨?_, ?_, ?_⟩
      · simp only [reindex, insortRight]
        exact sortedDesc_reindexEntries 0 _ hsorted2
      · intro _
        simp only [reindex, insortRight]
        rw [countP_ge_eq_of_boundary lb.entries c
          (bisectRight (-c) lb.entries 0 lb.entries.length) hbounds.2 hleft hright]
      · intro i e hi
        exact absurd hi (by simp)
  | some index =>
      simp only [recordEntry, hd] at h
      cases he : lb.entries[index]? with
      | none =>
          rw [he] at h
          simp at h
      | some entry =>
          rw [he] at h
          obtain ⟨hilen, hentry⟩ := List.getElem?_eq_some.mp he
          dsimp only [] at h
          have hkeyidx : keyAt lb.entries index = -entry.highest_count := by
            rw [keyAt_eq lb.entries index hilen, hentry]
          by_cases hcond : entry.highest_count < c
          · rw [if_pos hcond] at h
            split at h
            · -- relocation branch
              rename_i hg
              obtain ⟨hg1, hg2⟩ := hg
              simp only [Option.some.injEq, Prod.mk.injEq] at h
              obtain ⟨hlb, hb⟩ := h
              subst hlb
              subst hb
              have hkb := bisectRight_bounds (-c)
                (lb.entries.set index
                  { user_id := entry.user_id, highest_count := c,
                    last_highest_count := entry.highest_count,
                    times_counted := entry.times_counted + 1,
                    mistakes_made := entry.mistakes_made,
                    rank := entry.rank, last_rank := entry.last_rank })
                index 0 index (by omega) (by omega)
              have hmono1 : ∀ p q, p ≤ q → q < index →
                  keyAt (lb.entries.set index
                    { user_id := entry.user_id, highest_count := c,
                      last_highest_count := entry.highest_count,
                      times_counted := entry.times_counted + 1,
                      mistakes_made := entry.mistakes_made,
                      rank := entry.rank, last_rank := entry.last_rank }) p ≤
                  keyAt (lb.entries.set index
                    { user_id := entry.user_id, highest_count := c,
                      last_highest_count := entry.highest_count,
                      times_counted := entry.times_counted + 1,
                      mistakes_made := entry.mistakes_made,
                      rank := entry.rank, last_rank := entry.last_rank }) q := by
                intro p q hpq hq
                rw [keyAt_set_ne lb.entries index _ p (by omega),
                  keyAt_set_ne lb.entries index _ q (by omega)]
                exact hmono p q hpq (by omega)
              have hleft := bisectRight_key_le (-c)
                (lb.entries.set index
                  { user_id := entry.user_id, highest_count := c,
                    last_highest_count := entry.highest_count,
                    times_counted := entry.times_counted + 1,
                    mistakes_made := entry.mistakes_made,
                    rank := entry.rank, last_rank := entry.last_rank })
                index 0 index (by omega) (by omega) hmono1
                (fun j hj => absurd hj (Nat.not_lt_zero j))
              have hright := bisectRight_key_gt (-c)
                (lb.entries.set index
                  { user_id := entry.user_id, highest_count := c,
                    last_highest_count := entry.highest_count,
                    times_counted := entry.times_counted + 1,
                    mistakes_made := entry.mistakes_made,
                    rank := entry.rank, last_rank := entry.last_rank })
                index 0 index (by omega) hmono1
              have hlen_er : (lb.entries.eraseIdx index).length =
                  lb.entries.length - 1 := List.length_eraseIdx_of_lt hilen
              refine ⟨?_, ?_, ?_⟩
              · simp only [reindex]
                rw [set_eraseIdx_same]
                apply sortedDesc_reindexEntries
                apply sortedDesc_insertIdx (lb.entries.eraseIdx index) _ _
                  ?_ (sortedDesc_eraseIdx lb.entries index hs) ?_ ?_
                · omega
                · intro j hj
                  show keyAt _ j ≤ -c
                  rw [keyAt_eraseIdx_of_lt lb.entries index j (by omega)]
                  have hx := hleft j hj
                  rw [keyAt_set_ne lb.entries index _ j (by omega)] at hx
                  exact hx
                · intro j hj1 hj2
                  show -c ≤ keyAt _ j
                  by_cases hji : j < index
                  · rw [keyAt_eraseIdx_of_lt lb.entries index j hji]
                    have hx := hright j hj1 hji
                    rw [keyAt_set_ne lb.entries index _ j (by omega)] at hx
                    omega
                  · rw [keyAt_eraseIdx_of_ge lb.entries index j (by omega)]
                    have hm := hmono index (j + 1) (by omega) (by omega)
                    rw [hkeyidx] at hm
                    omega
              · intro h'
                exact Option.noConfusion h'
              · intro i e hi he' hlt' hpos hprev
                injection hi with hii
                subst hii
                rw [he] at he'
                injection he' with hee
                subst hee
                have hset : ((lb.entries.set index
                    { user_id := entry.user_id, highest_count := c,
                      last_highest_count := entry.highest_count,
                      times_counted := entry.times_counted + 1,
                      mistakes_made := entry.mistakes_made,
                      rank := entry.rank, last_rank := entry.last_rank }).getD
                    (index - 1) default) = lb.entries.getD (index - 1) default := by
                  simp [List.getD_eq_getElem?_getD,
                    List.getElem?_set_ne (show index ≠ index - 1 by omega)]
                rw [hset, hprev] at hg2
                exact absurd hg2 (lt_irrefl c)
            · -- no-move branch
              rename_i hg
              simp only [Option.some.injEq, Prod.mk.injEq] at h
              obtain ⟨hlb, hb⟩ := h
              subst hlb
              subst hb
              refine ⟨?_, ?_, ?_⟩
              · apply sortedDesc_set lb.entries index _ hilen hs
                · intro j hj
                  show keyAt lb.entries j ≤ -c
                  have hpos : 0 < index := by omega
                  have hcle : c ≤ (lb.entries.getD (index - 1) default).highest_count := by
                    by_contra hx
                    push_neg at hx
                    apply hg
                    refine ⟨hpos, ?_⟩
                    have hset : ((lb.entries.set index
                        { user_id := entry.user_id, highest_count := c,
                          last_highest_count := entry.highest_count,
                          times_counted := entry.times_counted + 1,
                          mistakes_made := entry.mistakes_made,
                          rank := entry.rank, last_rank := entry.last_rank }).getD
                        (index - 1) default) = lb.entries.getD (index - 1) default := by
                      simp [List.getD_eq_getElem?_getD,
                        List.getElem?_set_ne (show index ≠ index - 1 by omega)]
                    rw [hset]
                    exact hx
                  have hm := hmono j (index - 1) (by omega) (by omega)
                  have hkey1 : keyAt lb.entries (index - 1) ≤ -c := by
                    show -(lb.entries.getD (index - 1) default).highest_count ≤ -c
                    omega
                  omega
                · intro j hj hjlen
                  show -c ≤ keyAt lb.entries j
                  have hm := hmono index j (by omega) hjlen
                  rw [hkeyidx] at hm
                  omega
              · intro h'
                exact Option.noConfusion h'
              · intro i e hi he' hlt' hpos hprev
                injection hi with hii
                subst hii
                rw [he] at he'
                injection he' with hee
                subst hee
                exact ⟨rfl, rfl, rfl⟩
          · rw [if_neg hcond] at h
            simp only [Option.some.injEq, Prod.mk.injEq] at h
            obtain ⟨hlb, hb⟩ := h
            subst hlb
            subst hb
            refine ⟨?_, ?_, ?_⟩
            · apply sortedDesc_set lb.entries index _ hilen hs
              · intro j hj
                show keyAt lb.entries j ≤ -entry.highest_count
                have hm := hmono j index (by omega) hilen
                rw [hkeyidx] at hm
                exact hm
              · intro j hj hjlen
                show -entry.highest_count ≤ keyAt lb.entries j
                have hm := hmono index j (by omega) hjlen
                rw [hkeyidx] at hm
                exact hm
            · intro h'
              exact Option.noConfusion h'
            · intro i e hi he' hlt' hpos hprev
              injection hi with hii
              subst hii
              rw [he] at he'
              injection he' with hee
              subst hee
              exact absurd hlt' hcond


/-- A sorted one-entry leaderboard: user 1 with best 5 at rank 1. -/
def lbW : Leaderboard := ⟨[⟨1, 5, 0, 1, 0, 1, 0⟩], [(1, 0)]⟩

/-- The state after `record_entry(2, 5)` on `lbW`: the tying newcomer lands
below the earlier holder of score 5. -/
def lbW2 : Leaderboard :=
  ⟨[⟨1, 5, 0, 1, 0, 1, 1⟩, ⟨2, 5, 0, 1, 0, 2, 0⟩], [(1, 0), (2, 1)]⟩

theorem recordEntry_sorted_stable_witness :
    SortedDesc lbW.entries ∧
      recordEntry lbW 2 5 = some (lbW2, true) ∧
      (SortedDesc lbW2.entries
        ∧ (dictGet lbW.user_ids 2 = none →
             lbW2.entries = reindexEntries 0 (lbW.entries.insertIdx
               (lbW.entries.countP (fun e => decide ((5 : Int) ≤ e.highest_count)))
               { user_id := 2, highest_count := 5, times_counted := 1 }))
        ∧ (∀ i e, dictGet lbW.user_ids 2 = some i → lbW.entries[i]? = some e →
             e.highest_count < 5 → 0 < i →
             (lbW.entries.getD (i - 1) default).highest_count = 5 →
             lbW2.entries = lbW.entries.set i
                 { e with times_counted := e.times_counted + 1,
                          last_highest_count := e.highest_count,
                          highest_count := 5 } ∧
               lbW2.user_ids = lbW.user_ids ∧ true = false)) :=
  ⟨by decide,
   by simp [lbW, lbW2, recordEntry, dictGet, insortRight, bisectRight, reindex,
     reindexEntries, reindexIds, dictSet],
   recordEntry_sorted_stable lbW 2 5 lbW2 true (by decide)
     (by simp [lbW, lbW2, recordEntry, dictGet, insortRight, bisectRight, reindex,
       reindexEntries, reindexIds, dictSet])⟩

end Charlie


